import Mathlib

/-!
Shallow embedding of the kalshi-bot repository (pool_builder.py, buy.py) and
verification of its specification claims.

Modelling conventions:
* Python numbers (`int`/`float`) are modelled by `ℚ`; the float value
  `float("inf")` used by `parse_iso_utc`, `yes_spread` and `no_spread` is
  modelled by the extended value type `EVal` (`fin q` or `inf`).
* A JSON field that can hold a number or anything else (absent, `None`,
  a string, ...) is modelled by `PVal`: `num q` covers exactly the values for
  which Python's `isinstance(x, (int, float))` is true.
* Network I/O (`requests.get` / `requests.post`) is modelled by oracle
  functions passed as parameters; a raised `requests` exception is an
  `Except.error`.
* `time.time()` is a parameter `now : ℚ`; the library call
  `datetime.fromisoformat` inside `parse_iso_utc` is a parameter
  `fromIso : String → Option ℚ` (`none` models the parse raising).
* Python dicts keyed by strings (insertion-ordered) are association lists.
-/

namespace KalshiBot

/-- A JSON-ish field value: `num q` iff Python's `isinstance(x, (int, float))`
holds for it; `nonnum` covers absent / `None` / strings / any other value. -/
inductive PVal
  | num (q : ℚ)
  | nonnum
deriving DecidableEq, Repr

/-- Is this field value numeric (Python `isinstance(x, (int, float))`)? -/
def PVal.isNum : PVal → Bool
  | .num _ => true
  | .nonnum => false

/-- An extended value: a finite rational or `float("inf")`. -/
inductive EVal
  | fin (q : ℚ)
  | inf
deriving DecidableEq, Repr

/-- Strict order on extended values (`inf` is greater than everything,
`inf < inf` is false, matching IEEE comparison of `float("inf")`). -/
def EVal.lt : EVal → EVal → Bool
  | .fin a, .fin b => a < b
  | .fin _, .inf => true
  | .inf, _ => false

/-- Non-strict order on extended values. -/
def EVal.le : EVal → EVal → Bool
  | .fin a, .fin b => a ≤ b
  | _, .inf => true
  | .inf, .fin _ => false

/-- Minimum of two extended values (Python `min` on floats). -/
def EVal.min2 : EVal → EVal → EVal
  | .fin a, .fin b => .fin (Min.min a b)
  | .fin a, .inf => .fin a
  | .inf, b => b

/-- A market record as fetched from the listing endpoint: the fields the
program reads.  `event_ticker = none` models the key being absent or `None`;
`liquidity = none` models `m.get("liquidity", 0)` returning the default. -/
structure Market where
  ticker : String
  event_ticker : Option String
  close_time : String
  yes_bid : PVal
  yes_ask : PVal
  no_bid : PVal
  no_ask : PVal
  liquidity : Option ℚ
deriving DecidableEq, Repr

/-- `m.get("liquidity", 0)` -/
def Market.liq (m : Market) : ℚ := m.liquidity.getD 0

/-- pool_builder.py `SERIES`: the configured crypto series list. -/
def SERIES : List String := ["KXETHD", "KXETH", "KXBTCD", "KXBTC", "KXXRPD", "KXXRP"]

/-- pool_builder.py `MAX_SPREAD_CENTS` -/
def MAX_SPREAD_CENTS : ℚ := 30

/-- pool_builder.py `MIN_LIQUIDITY_CENTS` -/
def MIN_LIQUIDITY_CENTS : ℚ := 1000

/-- pool_builder.py `TOP_N_LIQUID_PER_EVENT` -/
def TOP_N_LIQUID_PER_EVENT : Nat := 50

/-- pool_builder.py `MIN_TIME_BUFFER_MINUTES` -/
def MIN_TIME_BUFFER_MINUTES : ℚ := 5

/-- pool_builder.py `parse_iso_utc`: converts an ISO timestamp to epoch
seconds, returning `inf` if parsing raises.  The library parse (including the
`Z` → `+00:00` rewrite) is abstracted by `fromIso`; `none` models it raising. -/
def parse_iso_utc (fromIso : String → Option ℚ) (s : String) : EVal :=
  match fromIso s with
  | some t => .fin t
  | none => .inf

/-- A transport failure raised by `requests`: a non-success HTTP status
(via `raise_for_status`) or a timeout. -/
inductive TransportError
  | httpStatus (code : Nat)
  | timeout
deriving DecidableEq, Repr

/-- pool_builder.py `get_open_markets_for_series`: pages through the listing
endpoint until no (truthy) continuation cursor is returned, accumulating all
pages.  `fetchPage` is the oracle for one `requests.get` (given the current
cursor, `none` for the first request); `fuel` bounds the unrolling of the
`while True` loop.  Any raised `TransportError` propagates. -/
def get_open_markets_for_series
    (fetchPage : Option String → Except TransportError (List Market × Option String)) :
    Nat → Option String → List Market → Except TransportError (List Market)
  | 0, _, acc => .ok acc
  | fuel + 1, cursor, acc =>
    match fetchPage cursor with
    | .error e => .error e
    | .ok (page, newCursor) =>
      match newCursor with
      | none => .ok (acc ++ page)
      | some c =>
        if c = "" then .ok (acc ++ page)
        else get_open_markets_for_series fetchPage fuel (some c) (acc ++ page)

/-- Helper for `group_by_event`: `by_evt.setdefault(evt, []).append(m)` on an
insertion-ordered association list. -/
def pushEvent (evt : String) (m : Market) : List (String × List Market) → List (String × List Market)
  | [] => [(evt, [m])]
  | (e, g) :: rest =>
    if e = evt then (e, g ++ [m]) :: rest else (e, g) :: pushEvent evt m rest

/-- pool_builder.py `group_by_event`: groups markets by event ticker, skipping
markets whose `event_ticker` is falsy (absent, `None`, or `""`). -/
def group_by_event (markets : List Market) : List (String × List Market) :=
  markets.foldl
    (fun acc m =>
      match m.event_ticker with
      | none => acc
      | some evt => if evt = "" then acc else pushEvent evt m acc)
    []

/-- The step function of `group_by_event`'s fold, named for the proofs. -/
def groupStep (acc : List (String × List Market)) (m : Market) : List (String × List Market) :=
  match m.event_ticker with
  | none => acc
  | some evt => if evt = "" then acc else pushEvent evt m acc

/-- The close time of an event group: `min((parse_iso_utc(g.get("close_time", ""))
for g in group), default=float("inf"))`. -/
def group_close (fromIso : String → Option ℚ) (group : List Market) : EVal :=
  (group.map (fun g => parse_iso_utc fromIso g.close_time)).foldl EVal.min2 .inf

/-- One pass of `pick_soonest_future_event`: scan the groups in order, keeping
the first-encountered group whose close time satisfies `pred` and strictly
improves the best close time so far. -/
def passLoop (ctOf : List Market → EVal) (pred : EVal → Bool)
    (groups : List (String × List Market)) (b : Option String × EVal) :
    Option String × EVal :=
  groups.foldl
    (fun b p =>
      let ct := ctOf p.2
      if pred ct && EVal.lt ct b.2 then (some p.1, ct) else b)
    b

/-- `by_event.get(best_evt, [])`: first group with the given key. -/
def lookupGroup (by_event : List (String × List Market)) (evt : String) : List Market :=
  match by_event.find? (fun p => p.1 = evt) with
  | some p => p.2
  | none => []

/-- pool_builder.py `pick_soonest_future_event`: three passes over the event
groups — (1) close time ≥ now + buffer, (2) close time ≥ now, (3) any close
time — each picking the minimum close time that strictly beats the running
best (which starts at `inf` and is only updated together with the best
event, so a failed pass leaves it at `inf`). -/
def pick_soonest_future_event (fromIso : String → Option ℚ) (now : ℚ)
    (by_event : List (String × List Market)) : Option String × List Market :=
  if by_event = [] then (none, [])
  else
    let min_close_ts : ℚ := now + MIN_TIME_BUFFER_MINUTES * 60
    let ctOf := group_close fromIso
    let b1 := passLoop ctOf (fun ct => EVal.le (.fin min_close_ts) ct) by_event (none, .inf)
    let b2 := match b1.1 with
      | some _ => b1
      | none => passLoop ctOf (fun ct => EVal.le (.fin now) ct) by_event b1
    let b3 := match b2.1 with
      | some _ => b2
      | none => passLoop ctOf (fun _ => true) by_event b2
    match b3.1 with
    | some evt => (some evt, lookupGroup by_event evt)
    | none => (none, [])

/-- The state after pass 1 of `pick_soonest_future_event` (the source's
`best_evt, best_close` after the first loop). -/
def pass1 (fromIso : String → Option ℚ) (now : ℚ)
    (by_event : List (String × List Market)) : Option String × EVal :=
  passLoop (group_close fromIso)
    (fun ct => EVal.le (.fin (now + MIN_TIME_BUFFER_MINUTES * 60)) ct) by_event (none, .inf)

/-- The state after pass 2 (runs only when pass 1 found nothing). -/
def pass2 (fromIso : String → Option ℚ) (now : ℚ)
    (by_event : List (String × List Market)) : Option String × EVal :=
  match (pass1 fromIso now by_event).1 with
  | some _ => pass1 fromIso now by_event
  | none =>
    passLoop (group_close fromIso) (fun ct => EVal.le (.fin now) ct) by_event
      (pass1 fromIso now by_event)

/-- The state after pass 3 (runs only when pass 2 found nothing). -/
def pass3 (fromIso : String → Option ℚ) (now : ℚ)
    (by_event : List (String × List Market)) : Option String × EVal :=
  match (pass2 fromIso now by_event).1 with
  | some _ => pass2 fromIso now by_event
  | none => passLoop (group_close fromIso) (fun _ => true) by_event (pass2 fromIso now by_event)

/-- pool_builder.py `yes_spread`: ask − bid, or `inf` when either side is
missing/non-numeric or the quote is dead (0/0 or 100/100). -/
def yes_spread (m : Market) : EVal :=
  match m.yes_bid, m.yes_ask with
  | .num yb, .num ya =>
    if (yb = 0 ∧ ya = 0) ∨ (yb = 100 ∧ ya = 100) then .inf else .fin (ya - yb)
  | _, _ => .inf

/-- pool_builder.py `no_spread`: same as `yes_spread` on the no side. -/
def no_spread (m : Market) : EVal :=
  match m.no_bid, m.no_ask with
  | .num nb, .num na =>
    if (nb = 0 ∧ na = 0) ∨ (nb = 100 ∧ na = 100) then .inf else .fin (na - nb)
  | _, _ => .inf

/-- The filter condition inside `build_pool`:
`ys < MAX_SPREAD_CENTS and ns < MAX_SPREAD_CENTS and liq >= MIN_LIQUIDITY_CENTS`.
(The source then annotates a copy of the market with `_yes_spread`,
`_no_spread` and `_event_ticker`, keys used only for console output and not
modelled here.) -/
def passes_filter (m : Market) : Bool :=
  EVal.lt (yes_spread m) (.fin MAX_SPREAD_CENTS)
    && EVal.lt (no_spread m) (.fin MAX_SPREAD_CENTS)
    && decide (MIN_LIQUIDITY_CENTS ≤ m.liq)

/-- Stable insertion step for descending sort by liquidity. -/
def insertByLiqDesc (x : Market) : List Market → List Market
  | [] => [x]
  | y :: ys => if Market.liq y ≤ Market.liq x then x :: y :: ys else y :: insertByLiqDesc x ys

/-- `filtered.sort(key=lambda x: x.get("liquidity", 0), reverse=True)`:
Python's stable sort, descending by liquidity (among equal liquidities the
original order is kept). -/
def sortByLiqDesc (l : List Market) : List Market := l.foldr insertByLiqDesc []

/-- pool_builder.py `build_pool`, for one series (the body of the series
loop): fetch, group, pick the event, filter, rank, truncate.  Returns the
series' contribution to the pool; a raised `TransportError` propagates. -/
def series_contribution (fetchPage : String → Option String → Except TransportError (List Market × Option String))
    (fuel : Nat) (fromIso : String → Option ℚ) (now : ℚ) (series : String) :
    Except TransportError (List Market) :=
  match get_open_markets_for_series (fetchPage series) fuel none [] with
  | .error e => .error e
  | .ok mkts =>
    let by_evt := group_by_event mkts
    let (evtOpt, ladder) := pick_soonest_future_event fromIso now by_evt
    match evtOpt with
    | none => .ok []
    | some evt =>
      if evt = "" ∨ ladder = [] then .ok []
      else
        let filtered := ladder.filter passes_filter
        if filtered = [] then .ok []
        else .ok ((sortByLiqDesc filtered).take TOP_N_LIQUID_PER_EVENT)

/-- One iteration of `build_pool`'s series loop: compute the series'
contribution and append it (`pool.extend(filtered)`); an error propagates. -/
def pool_step (fetchPage : String → Option String → Except TransportError (List Market × Option String))
    (fuel : Nat) (fromIso : String → Option ℚ) (now : ℚ)
    (pool : List Market) (series : String) : Except TransportError (List Market) :=
  match series_contribution fetchPage fuel fromIso now series with
  | .error e => .error e
  | .ok contrib => .ok (pool ++ contrib)

/-- pool_builder.py `build_pool`: loops over `SERIES`, appending each series'
contribution.  There is no exception handler in the loop, so a
`TransportError` raised while fetching any series propagates out of
`build_pool` (modelled by the `Except` bind). -/
def build_pool (fetchPage : String → Option String → Except TransportError (List Market × Option String))
    (fuel : Nat) (fromIso : String → Option ℚ) (now : ℚ) :
    Except TransportError (List Market) :=
  SERIES.foldlM (pool_step fetchPage fuel fromIso now) []

/-! ## buy.py -/

/-- A hash algorithm name as passed to the `cryptography` API. -/
inductive HashAlg
  | sha256
deriving DecidableEq, Repr

/-- The salt-length choice for PSS padding: `padding.PSS.DIGEST_LENGTH`
(salt as long as the digest) or `padding.PSS.MAX_LENGTH` (maximal salt). -/
inductive SaltLength
  | digestLength
  | maxLength
deriving DecidableEq, Repr

/-- The parameters of a `padding.PSS(...)` object: the MGF1 hash and the
salt length. -/
structure PSSParams where
  mgf1Hash : HashAlg
  saltLength : SaltLength
deriving DecidableEq, Repr

/-- The padding object constructed by buy.py `sign_request`:
`padding.PSS(mgf=padding.MGF1(hashes.SHA256()), salt_length=padding.PSS.DIGEST_LENGTH)`. -/
def signPadding : PSSParams := { mgf1Hash := .sha256, saltLength := .digestLength }

/-- The message digest passed to `private_key.sign`: `hashes.SHA256()`. -/
def signDigest : HashAlg := .sha256

/-- `path.split('?')[0]`: the path with any query string stripped.  The first
component of Python's `split('?')` is the longest prefix of the string that
contains no `'?'`, modelled character-wise. -/
def path_without_query (path : String) : String :=
  String.mk (path.data.takeWhile (fun c => c ≠ '?'))

/-- `timestamp_ms + method + path_without_query`: the exact string signed. -/
def message_string (timestamp_ms method path : String) : String :=
  timestamp_ms ++ method ++ path_without_query path

/-- The base64 alphabet (RFC 4648). -/
def b64Alphabet : List Char :=
  "ABCDEFGHIJKLMNOPQRSTUVWXYZabcdefghijklmnopqrstuvwxyz0123456789+/".toList

/-- The base64 character for a 6-bit value. -/
def b64Char (n : Nat) : Char := b64Alphabet.getD n 'A'

/-- `base64.b64encode` on a byte sequence (each `Nat` a byte value < 256). -/
def b64encode : List Nat → String
  | [] => ""
  | [a] => String.mk [b64Char (a / 4), b64Char (a % 4 * 16), '=', '=']
  | [a, b] => String.mk [b64Char (a / 4), b64Char (a % 4 * 16 + b / 16), b64Char (b % 16 * 4), '=']
  | a :: b :: c :: rest =>
    String.mk [b64Char (a / 4), b64Char (a % 4 * 16 + b / 16),
      b64Char (b % 16 * 4 + c / 64), b64Char (c % 64)] ++ b64encode rest

/-- buy.py `sign_request`: builds the message `timestamp_ms + method +
path-without-query`, signs it with RSA-PSS and base64-encodes the raw
signature.  The RSA primitive `private_key.sign` is abstracted by the oracle
`rsaSign`, which receives the padding parameters, the digest algorithm and
the (UTF-8) message and returns the raw signature bytes; the key loading
(`load_pem_private_key`) and UTF-8 encoding are absorbed into the oracle.
The request body is a parameter but is never part of the signed message. -/
def sign_request (rsaSign : PSSParams → HashAlg → String → List Nat)
    (method path body timestamp_ms : String) : String :=
  b64encode (rsaSign signPadding signDigest (message_string timestamp_ms method path))

/-- The side of an order. -/
inductive Side
  | yes
  | no
deriving DecidableEq, Repr

/-- buy.py `_choose_side`: `"yes"` and `"no"` are honoured; any other
strategy falls through to `random.choice(["yes", "no"])`, modelled by the
`coin` argument. -/
def _choose_side (side_strategy : String) (coin : Bool) : Side :=
  if side_strategy = "yes" then .yes
  else if side_strategy = "no" then .no
  else if coin then .yes else .no

/-- Python's `round` with no digits: round half to even, returning an
integer. -/
def pyRound (q : ℚ) : ℤ :=
  let f := ⌊q⌋
  let r := q - f
  if r < 1 / 2 then f
  else if 1 / 2 < r then f + 1
  else if f % 2 = 0 then f else f + 1

/-- buy.py `_limit_price_cents_for_buy`: reads the chosen side's ask,
substitutes 50 only when it is not numeric (`isinstance(ask, (int, float))`
false), adds the buffer, rounds, and clamps via
`int(max(1, min(99, round(price_with_buffer))))`. -/
def _limit_price_cents_for_buy (side : Side) (market : Market)
    (price_buffer_cents : ℚ := 2) : ℤ :=
  let ask : ℚ :=
    match (match side with | .yes => market.yes_ask | .no => market.no_ask) with
    | .num q => q
    | .nonnum => 50
  let price_with_buffer := ask + price_buffer_cents
  max 1 (min 99 (pyRound price_with_buffer))

/-- The order payload assembled in `buy_from_pool` (`otype` is the JSON key
`"type"`). -/
structure OrderBody where
  ticker : String
  side : Side
  action : String
  count : Nat
  time_in_force : String
  otype : String
  yes_price : Option ℤ := none
  no_price : Option ℤ := none
deriving DecidableEq, Repr

/-- An exception raised during `_post_create_order`: `requests.HTTPError`
(carrying a status and a response body) or any other `Exception`.  Both are
caught by `buy_from_pool`'s handlers. -/
inductive PostError
  | httpError (status : Nat) (text : String)
  | otherError (msg : String)
deriving DecidableEq, Repr

/-- The decoded JSON of a successful order response, kept abstract as a
payload the loop only stores. -/
structure Resp where
  payload : String
deriving DecidableEq, Repr

/-- The body built for one target market in `buy_from_pool`'s loop: one
contract, buy, GTC; a market order carries no price, a limit order carries
the side's buffered ask price. -/
def order_body_for (m : Market) (side : Side) (use_market_orders : Bool) : OrderBody :=
  let base : OrderBody :=
    { ticker := m.ticker, side := side, action := "buy", count := 1,
      time_in_force := "GTC", otype := "market" }
  if use_market_orders then base
  else
    match side with
    | .yes => { base with otype := "limit", yes_price := some (_limit_price_cents_for_buy .yes m) }
    | .no => { base with otype := "limit", no_price := some (_limit_price_cents_for_buy .no m) }

/-- The body of `buy_from_pool`'s `for m in targets` loop: pick the side,
build the order, call `_post_create_order` (the i-th call is `post i`),
record the result on success, swallow the exception otherwise.  The
accumulator carries (loop index, submitted bodies, `results`). -/
def buy_step (side_strategy : String) (use_market_orders : Bool) (coin : Nat → Bool)
    (post : Nat → OrderBody → Except PostError Resp)
    (acc : Nat × List OrderBody × List (String × Resp)) (m : Market) :
    Nat × List OrderBody × List (String × Resp) :=
  let (i, subs, results) := acc
  let side := _choose_side side_strategy (coin i)
  let body := order_body_for m side use_market_orders
  match post i body with
  | .ok resp => (i + 1, subs ++ [body], results ++ [(m.ticker, resp)])
  | .error _ => (i + 1, subs ++ [body], results)

/-- buy.py `buy_from_pool`.  Randomness and the network are oracles: `coin i`
is the i-th call to `random.choice(["yes", "no"])`, `randIdx` drives
`random.choice(pool)`, and `post i body` is the i-th call to
`_post_create_order` (the credentials `kalshi_key_id` / `private_key_pem`
flow only into that call and are absorbed by the oracle).  The returned pair
is (the sequence of order bodies actually submitted, the `results` list of
(ticker, response) for successful submissions); an exception on one target
is caught and the loop continues. -/
def buy_from_pool (pool : List Market) (kalshi_key_id private_key_pem : String)
    (choose : String) (side_strategy : String) (use_market_orders : Bool)
    (randIdx : Nat) (coin : Nat → Bool) (post : Nat → OrderBody → Except PostError Resp) :
    List OrderBody × List (String × Resp) :=
  let _ := kalshi_key_id
  let _ := private_key_pem
  if pool = [] then ([], [])
  else
    let targets : List Market :=
      if choose = "one_random" then
        match pool.get? (randIdx % pool.length) with
        | some m => [m]
        | none => []
      else pool
    let out := targets.foldl (buy_step side_strategy use_market_orders coin post) (0, [], [])
    (out.2.1, out.2.2)

/-- Specification-side description of what `buy_from_pool`'s loop submits:
one order body per target market, in order, with the i-th target using the
i-th coin flip. -/
def submitted_bodies (side_strategy : String) (use_market_orders : Bool)
    (coin : Nat → Bool) : Nat → List Market → List OrderBody
  | _, [] => []
  | i, m :: ms =>
    order_body_for m (_choose_side side_strategy (coin i)) use_market_orders
      :: submitted_bodies side_strategy use_market_orders coin (i + 1) ms

/-- Specification-side description of `buy_from_pool`'s `results`: the
(ticker, response) pairs of exactly the targets whose submission succeeded,
in order. -/
def successful_results (side_strategy : String) (use_market_orders : Bool)
    (coin : Nat → Bool) (post : Nat → OrderBody → Except PostError Resp) :
    Nat → List Market → List (String × Resp)
  | _, [] => []
  | i, m :: ms =>
    match post i (order_body_for m (_choose_side side_strategy (coin i)) use_market_orders) with
    | .ok r => (m.ticker, r) :: successful_results side_strategy use_market_orders coin post (i + 1) ms
    | .error _ => successful_results side_strategy use_market_orders coin post (i + 1) ms

/-! ## Specification-side helpers for event selection -/

/-- A close time that is finite (parseable) and at least `bound`: the
effective eligibility condition of the first two selection passes. -/
def finiteGE (c : EVal) (bound : ℚ) : Bool :=
  match c with
  | .fin q => bound ≤ q
  | .inf => false

/-! ## Concrete fixtures used in counterexamples and witnesses -/

/-- A market passing every filter (spreads 15/15, liquidity 1000). -/
def exKeep : Market :=
  { ticker := "K", event_ticker := some "EV", close_time := "t",
    yes_bid := .num 40, yes_ask := .num 55, no_bid := .num 45, no_ask := .num 60,
    liquidity := some 1000 }

/-- The same quotes with liquidity 999. -/
def exLowLiq : Market := { exKeep with liquidity := some 999 }

/-- A market whose yes ask is the numeric out-of-range value −5. -/
def exAskNeg : Market := { exKeep with yes_ask := .num (-5) }

/-- A market whose yes ask is 97. -/
def exAsk97 : Market := { exKeep with yes_ask := .num 97 }

/-- A market whose yes ask is absent/non-numeric. -/
def exAskMissing : Market := { exKeep with yes_ask := .nonnum }

/-- A market with an event ticker but an unparseable close time. -/
def exUnparseable : Market := { exKeep with event_ticker := some "EVX", close_time := "garbage" }

/-- A second unparseable-close-time market, for the pass-1 counterexample. -/
def exUnparseable7 : Market := { exKeep with event_ticker := some "E7", close_time := "nope" }

/-- A `fromIso` oracle under which no timestamp parses. -/
def fromIsoNone : String → Option ℚ := fun _ => none

/-- A `fromIso` oracle with two events: `"t3"` parses to `now + 180`
(3 minutes out) and `"t10"` to `now + 600` (10 minutes out). -/
def fromIsoSched (now : ℚ) : String → Option ℚ :=
  fun s => if s = "t3" then some (now + 180) else if s = "t10" then some (now + 600) else none

/-- The market of the event closing at now + 3 minutes. -/
def mEvt3 : Market := { exKeep with ticker := "A", event_ticker := some "E3", close_time := "t3" }

/-- The market of the event closing at now + 10 minutes. -/
def mEvt10 : Market := { exKeep with ticker := "B", event_ticker := some "E10", close_time := "t10" }

/-- A page fetcher that fails with HTTP 500 on the first configured series
and returns a single good market (single page) for every other series. -/
def cexFetch : String → Option String → Except TransportError (List Market × Option String) :=
  fun series _ =>
    if series = "KXETHD" then .error (.httpStatus 500) else .ok ([exKeep], none)

/-- A `fromIso` oracle under which `exKeep`'s close time parses to 400. -/
def fromIsoGood : String → Option ℚ := fun s => if s = "t" then some 400 else none

/-- An RSA oracle that reveals which salt length it was invoked with:
byte 0 under maximal salt, byte 255 under digest-length salt. -/
def probeSign : PSSParams → HashAlg → String → List Nat :=
  fun p _ _ => if p.saltLength = SaltLength.maxLength then [0] else [255]

/-- A post oracle that fails the second submission (index 1) with HTTP 400
and succeeds on every other one. -/
def postFailSecond : Nat → OrderBody → Except PostError Resp :=
  fun i _ => if i = 1 then .error (.httpError 400 "bad") else .ok ⟨"ok"⟩

/-! ## Order lemmas for `EVal` -/

lemma EVal.le_refl (a : EVal) : EVal.le a a = true := by
  cases a <;> simp [EVal.le]

lemma EVal.not_lt (a b : EVal) : EVal.lt a b = false ↔ EVal.le b a = true := by
  cases a <;> cases b <;> simp [EVal.lt, EVal.le] <;> constructor <;> intro h <;> linarith

lemma EVal.lt_le_asymm {a b : EVal} (h1 : EVal.lt a b = true) (h2 : EVal.le b a = true) :
    False := by
  cases a <;> cases b <;> simp [EVal.lt, EVal.le] at h1 h2 <;> linarith

lemma EVal.lt_of_lt_of_le {a b c : EVal} (h1 : EVal.lt a b = true) (h2 : EVal.le b c = true) :
    EVal.lt a c = true := by
  cases a <;> cases b <;> cases c <;> simp [EVal.lt, EVal.le] at h1 h2 ⊢ <;> linarith

lemma EVal.le_trans {a b c : EVal} (h1 : EVal.le a b = true) (h2 : EVal.le b c = true) :
    EVal.le a c = true := by
  cases a <;> cases b <;> cases c <;> simp [EVal.lt, EVal.le] at h1 h2 ⊢ <;> linarith

lemma EVal.lt_inf_iff (a : EVal) : EVal.lt a .inf = true ↔ ∃ q, a = .fin q := by
  cases a <;> simp [EVal.lt]

lemma EVal.le_of_lt {a b : EVal} (h : EVal.lt a b = true) : EVal.le a b = true := by
  cases a <;> cases b <;> simp [EVal.lt, EVal.le] at h ⊢ <;> linarith

lemma EVal.min2_le_left (a b : EVal) : EVal.le (EVal.min2 a b) a = true := by
  cases a <;> cases b <;> simp [EVal.min2, EVal.le, min_le_left]

lemma EVal.min2_le_right (a b : EVal) : EVal.le (EVal.min2 a b) b = true := by
  cases a <;> cases b <;> simp [EVal.min2, EVal.le, min_le_right]

lemma foldl_min2_le_init : ∀ (l : List EVal) (init : EVal),
    EVal.le (l.foldl EVal.min2 init) init = true
  | [], init => EVal.le_refl init
  | a :: l, init =>
    EVal.le_trans (foldl_min2_le_init l (EVal.min2 init a)) (EVal.min2_le_left init a)

lemma foldl_min2_le_mem : ∀ (l : List EVal) (init : EVal) (x : EVal), x ∈ l →
    EVal.le (l.foldl EVal.min2 init) x = true := by
  intro l
  induction l with
  | nil => intro init x hx; simp at hx
  | cons a l ih =>
    intro init x hx
    rcases List.mem_cons.mp hx with rfl | hx
    · exact EVal.le_trans (foldl_min2_le_init l (EVal.min2 init x)) (EVal.min2_le_right init x)
    · exact ih (EVal.min2 init a) x hx

/-- A group's close time is at most the parsed close time of any member. -/
lemma group_close_le_mem (fromIso : String → Option ℚ) {g : List Market} {m : Market}
    (hm : m ∈ g) :
    EVal.le (group_close fromIso g) (parse_iso_utc fromIso m.close_time) = true :=
  foldl_min2_le_mem _ _ _ (List.mem_map_of_mem (fun g => parse_iso_utc fromIso g.close_time) hm)

/-! ## Lemmas about `group_by_event` -/

lemma pushEvent_mem_self (evt : String) (m : Market) :
    ∀ acc : List (String × List Market),
      ∃ g, (evt, g) ∈ pushEvent evt m acc ∧ m ∈ g
  | [] => ⟨[m], by simp [pushEvent]⟩
  | (e, g) :: rest => by
    by_cases he : e = evt
    · subst he
      exact ⟨g ++ [m], by simp [pushEvent]⟩
    · obtain ⟨g', hg', hm⟩ := pushEvent_mem_self evt m rest
      exact ⟨g', by simp [pushEvent, he, hg'], hm⟩

lemma pushEvent_mem_mono (evt : String) (m : Market) {e₀ : String} {x : Market} :
    ∀ {acc : List (String × List Market)} {g₀ : List Market},
      (e₀, g₀) ∈ acc → x ∈ g₀ →
      ∃ g', (e₀, g') ∈ pushEvent evt m acc ∧ x ∈ g' := by
  intro acc
  induction acc with
  | nil => intro g₀ h; simp at h
  | cons p rest ih =>
    intro g₀ hmem hx
    obtain ⟨e, g⟩ := p
    rcases List.mem_cons.mp hmem with heq | hmem
    · rw [Prod.mk.injEq] at heq
      obtain ⟨rfl, rfl⟩ := heq
      by_cases he : e₀ = evt
      · subst he
        exact ⟨g₀ ++ [m], by simp [pushEvent], by simp [hx]⟩
      · exact ⟨g₀, by simp [pushEvent, he], hx⟩
    · by_cases he : e = evt
      · subst he
        exact ⟨g₀, by simp [pushEvent, hmem], hx⟩
      · obtain ⟨g', hg', hx'⟩ := ih hmem hx
        exact ⟨g', by simp [pushEvent, he, hg'], hx'⟩

lemma pushEvent_ne_nil (evt : String) (m : Market) :
    ∀ {acc : List (String × List Market)},
      (∀ p ∈ acc, p.2 ≠ []) → ∀ p ∈ pushEvent evt m acc, p.2 ≠ [] := by
  intro acc
  induction acc with
  | nil =>
    intro _ p hp
    simp [pushEvent] at hp
    subst hp; simp
  | cons q rest ih =>
    intro hacc p hp
    obtain ⟨e, g⟩ := q
    by_cases he : e = evt
    · subst he
      simp [pushEvent] at hp
      rcases hp with rfl | hp
      · simp
      · exact hacc p (List.mem_cons_of_mem _ hp)
    · simp [pushEvent, he] at hp
      rcases hp with rfl | hp
      · exact hacc (e, g) (by simp)
      · exact ih (fun q hq => hacc q (List.mem_cons_of_mem _ hq)) p hp

lemma group_by_event_eq_foldl (markets : List Market) :
    group_by_event markets = markets.foldl groupStep [] := rfl

lemma groupStep_mem_mono {e₀ : String} {x : Market} {acc : List (String × List Market)}
    {g₀ : List Market} (m : Market) (hmem : (e₀, g₀) ∈ acc) (hx : x ∈ g₀) :
    ∃ g', (e₀, g') ∈ groupStep acc m ∧ x ∈ g' := by
  rcases hE : m.event_ticker with _ | evt
  · exact ⟨g₀, by simp [groupStep, hE, hmem], hx⟩
  · by_cases he : evt = ""
    · exact ⟨g₀, by simp [groupStep, hE, he, hmem], hx⟩
    · obtain ⟨g', hg', hx'⟩ := pushEvent_mem_mono evt m hmem hx
      exact ⟨g', by simp [groupStep, hE, he, hg'], hx'⟩

lemma foldl_groupStep_mem_mono {e₀ : String} {x : Market} :
    ∀ (l : List Market) {acc : List (String × List Market)} {g₀ : List Market},
      (e₀, g₀) ∈ acc → x ∈ g₀ →
      ∃ g', (e₀, g') ∈ l.foldl groupStep acc ∧ x ∈ g' := by
  intro l
  induction l with
  | nil => intro acc g₀ hmem hx; exact ⟨g₀, hmem, hx⟩
  | cons m ms ih =>
    intro acc g₀ hmem hx
    obtain ⟨g', hg', hx'⟩ := groupStep_mem_mono m hmem hx
    exact ih hg' hx'

/-- Any market with a truthy event ticker lands in some group of
`group_by_event`, keyed by that ticker. -/
lemma mem_group_by_event {markets : List Market} {m : Market} {e : String}
    (hm : m ∈ markets) (he : m.event_ticker = some e) (hne : e ≠ "") :
    ∃ g, (e, g) ∈ group_by_event markets ∧ m ∈ g := by
  rw [group_by_event_eq_foldl]
  suffices h : ∀ (l : List Market), m ∈ l → ∀ acc : List (String × List Market),
      ∃ g, (e, g) ∈ l.foldl groupStep acc ∧ m ∈ g from h markets hm []
  intro l
  induction l with
  | nil => intro h; simp at h
  | cons m₀ ms ih =>
    intro h acc
    rcases List.mem_cons.mp h with rfl | h
    · have hstep : ∃ g, (e, g) ∈ groupStep acc m ∧ m ∈ g := by
        simpa [groupStep, he, hne] using pushEvent_mem_self e m acc
      obtain ⟨g, hg, hmg⟩ := hstep
      exact foldl_groupStep_mem_mono ms hg hmg
    · exact ih h (groupStep acc m₀)

/-! ## Lemmas about `passLoop` -/

/-- If a pass returns no best event, it changed nothing and no group
satisfied its firing condition. -/
lemma passLoop_eq_none {ctOf : List Market → EVal} {pred : EVal → Bool} :
    ∀ (l : List (String × List Market)) (b : Option String × EVal),
      (passLoop ctOf pred l b).1 = none →
      passLoop ctOf pred l b = b ∧
        ∀ p ∈ l, ¬(pred (ctOf p.2) = true ∧ EVal.lt (ctOf p.2) b.2 = true) := by
  intro l
  induction l with
  | nil => intro b _; exact ⟨rfl, by simp⟩
  | cons p l ih =>
    intro b hnone
    have hstep : passLoop ctOf pred (p :: l) b
        = passLoop ctOf pred l
            (if pred (ctOf p.2) && EVal.lt (ctOf p.2) b.2 then (some p.1, ctOf p.2) else b) := rfl
    rw [hstep] at hnone ⊢
    by_cases hc : pred (ctOf p.2) && EVal.lt (ctOf p.2) b.2
    · rw [if_pos hc] at hnone
      obtain ⟨heq, -⟩ := ih _ hnone
      rw [heq] at hnone
      simp at hnone
    · rw [if_neg hc] at hnone ⊢
      obtain ⟨heq, hall⟩ := ih b hnone
      refine ⟨heq, ?_⟩
      intro q hq
      rcases List.mem_cons.mp hq with rfl | hq
      · intro ⟨h1, h2⟩
        exact hc (by rw [h1, h2]; rfl)
      · exact hall q hq

/-- The invariant of one selection pass: the best close time never
increases, no group satisfying the pass predicate beats the final best, and
the final best is either the initial one or the close time of some group
satisfying the predicate that beat the initial best. -/
lemma passLoop_spec (ctOf : List Market → EVal) (pred : EVal → Bool) :
    ∀ (l : List (String × List Market)) (b : Option String × EVal),
      EVal.le (passLoop ctOf pred l b).2 b.2 = true ∧
      (∀ p ∈ l, pred (ctOf p.2) = true →
        EVal.lt (ctOf p.2) (passLoop ctOf pred l b).2 = false) ∧
      (passLoop ctOf pred l b = b ∨
        ∃ p ∈ l, pred (ctOf p.2) = true ∧ EVal.lt (ctOf p.2) b.2 = true ∧
          (passLoop ctOf pred l b).1 = some p.1 ∧
          (passLoop ctOf pred l b).2 = ctOf p.2) := by
  intro l
  induction l with
  | nil => intro b; exact ⟨EVal.le_refl b.2, by simp, Or.inl rfl⟩
  | cons p l ih =>
    intro b
    have hstep : passLoop ctOf pred (p :: l) b
        = passLoop ctOf pred l
            (if pred (ctOf p.2) && EVal.lt (ctOf p.2) b.2 then (some p.1, ctOf p.2) else b) := rfl
    by_cases hc : pred (ctOf p.2) && EVal.lt (ctOf p.2) b.2
    · -- the head fires
      rw [hstep, if_pos hc]
      have hcp : pred (ctOf p.2) = true := ((Bool.and_eq_true _ _).mp hc).1
      have hclt : EVal.lt (ctOf p.2) b.2 = true := ((Bool.and_eq_true _ _).mp hc).2
      obtain ⟨hle, hnobeat, hor⟩ := ih (some p.1, ctOf p.2)
      have hple : EVal.le (ctOf p.2) b.2 = true := EVal.le_of_lt hclt
      refine ⟨EVal.le_trans hle hple, ?_, ?_⟩
      · intro q hq hqp
        rcases List.mem_cons.mp hq with rfl | hq
        · exact (EVal.not_lt _ _).mpr hle
        · exact hnobeat q hq hqp
      · rcases hor with heq | ⟨q, hq, hqp, hqlt, h1, h2⟩
        · exact Or.inr ⟨p, List.mem_cons_self _ _, hcp, hclt, by rw [heq], by rw [heq]⟩
        · exact Or.inr ⟨q, List.mem_cons_of_mem _ hq, hqp,
            EVal.lt_of_lt_of_le hqlt hple, h1, h2⟩
    · -- the head does not fire
      rw [hstep, if_neg hc]
      obtain ⟨hle, hnobeat, hor⟩ := ih b
      refine ⟨hle, ?_, ?_⟩
      · intro q hq hqp
        rcases List.mem_cons.mp hq with rfl | hq
        · have hlt : EVal.lt (ctOf q.2) b.2 = false := by
            by_contra h
            exact hc (by rw [hqp, Bool.of_not_eq_false h]; rfl)
          rw [EVal.not_lt] at hlt ⊢
          exact EVal.le_trans hle hlt
        · exact hnobeat q hq hqp
      · rcases hor with heq | ⟨q, hq, hqp, hqlt, h1, h2⟩
        · exact Or.inl heq
        · exact Or.inr ⟨q, List.mem_cons_of_mem _ hq, hqp, hqlt, h1, h2⟩

/-! ## Lemmas about `pick_soonest_future_event` -/

lemma EVal.le_fin_imp {a : EVal} {t : ℚ} (h : EVal.le a (.fin t) = true) :
    ∃ q, a = .fin q ∧ q ≤ t := by
  cases a with
  | fin q => exact ⟨q, rfl, by simpa [EVal.le] using h⟩
  | inf => simp [EVal.le] at h

lemma finiteGE_iff (c : EVal) (bound : ℚ) :
    finiteGE c bound = true ↔ ∃ q, c = .fin q ∧ bound ≤ q := by
  cases c <;> simp [finiteGE]

lemma groupStep_ne_nil {acc : List (String × List Market)} (m : Market)
    (h : ∀ p ∈ acc, p.2 ≠ []) : ∀ p ∈ groupStep acc m, p.2 ≠ [] := by
  rcases hE : m.event_ticker with _ | evt
  · simpa [groupStep, hE] using h
  · by_cases he : evt = ""
    · simpa [groupStep, hE, he] using h
    · simpa [groupStep, hE, he] using pushEvent_ne_nil evt m h

lemma group_by_event_ne_nil {markets : List Market} :
    ∀ p ∈ group_by_event markets, p.2 ≠ [] := by
  rw [group_by_event_eq_foldl]
  suffices h : ∀ (l : List Market) (acc : List (String × List Market)),
      (∀ p ∈ acc, p.2 ≠ []) → ∀ p ∈ l.foldl groupStep acc, p.2 ≠ [] from
    h markets [] (by simp)
  intro l
  induction l with
  | nil => intro acc h; exact h
  | cons m ms ih => intro acc h; exact ih (groupStep acc m) (groupStep_ne_nil m h)

lemma lookupGroup_mem {l : List (String × List Market)} {evt : String}
    (h : ∃ p ∈ l, p.1 = evt) : (evt, lookupGroup l evt) ∈ l := by
  obtain ⟨p, hp, hpe⟩ := h
  have hsome : (l.find? (fun p => p.1 = evt)).isSome := by
    rw [List.find?_isSome]
    exact ⟨p, hp, by simp [hpe]⟩
  obtain ⟨a, ha⟩ := Option.isSome_iff_exists.mp hsome
  have hmem := List.mem_of_find?_eq_some ha
  have hkey : a.1 = evt := by simpa using List.find?_some ha
  have : lookupGroup l evt = a.2 := by simp [lookupGroup, ha]
  rw [this, ← hkey]
  exact hmem

/-- `pick_soonest_future_event` in terms of the three pass states. -/
lemma pick_eq_pass3 (fromIso : String → Option ℚ) (now : ℚ)
    (by_event : List (String × List Market)) (hne : ¬by_event = []) :
    pick_soonest_future_event fromIso now by_event =
      (match (pass3 fromIso now by_event).1 with
       | some evt => (some evt, lookupGroup by_event evt)
       | none => (none, [])) := by
  simp only [pick_soonest_future_event, if_neg hne]
  rfl

lemma pass1_none {fromIso : String → Option ℚ} {now : ℚ}
    {by_event : List (String × List Market)} (h : (pass1 fromIso now by_event).1 = none) :
    pass1 fromIso now by_event = (none, .inf) :=
  (passLoop_eq_none by_event _ h).1

lemma pass2_eq_of_pass1_none {fromIso : String → Option ℚ} {now : ℚ}
    {by_event : List (String × List Market)} (h : (pass1 fromIso now by_event).1 = none) :
    pass2 fromIso now by_event
      = passLoop (group_close fromIso) (fun ct => EVal.le (.fin now) ct) by_event
          (pass1 fromIso now by_event) := by
  simp only [pass2, h]

lemma pass3_eq_of_pass2_none {fromIso : String → Option ℚ} {now : ℚ}
    {by_event : List (String × List Market)} (h : (pass2 fromIso now by_event).1 = none) :
    pass3 fromIso now by_event
      = passLoop (group_close fromIso) (fun _ => true) by_event (pass2 fromIso now by_event) := by
  simp only [pass3, h]

/-- If pass 2 found nothing, both earlier pass states are still the initial
(no event, `inf`) state. -/
lemma pass2_none {fromIso : String → Option ℚ} {now : ℚ}
    {by_event : List (String × List Market)} (h : (pass2 fromIso now by_event).1 = none) :
    pass2 fromIso now by_event = (none, .inf) ∧ (pass1 fromIso now by_event).1 = none := by
  rcases h1 : (pass1 fromIso now by_event).1 with _ | evt
  · have heq := pass2_eq_of_pass1_none h1
    rw [heq] at h ⊢
    rw [(passLoop_eq_none by_event _ h).1]
    exact ⟨pass1_none h1, rfl⟩
  · have : pass2 fromIso now by_event = pass1 fromIso now by_event := by
      simp only [pass2, h1]
    rw [this, h1] at h
    simp at h

/-- If pass 3 still found nothing, every group's close time is infinite. -/
lemma pass3_none {fromIso : String → Option ℚ} {now : ℚ}
    {by_event : List (String × List Market)} (h : (pass3 fromIso now by_event).1 = none) :
    ∀ p ∈ by_event, group_close fromIso p.2 = .inf := by
  rcases h2 : (pass2 fromIso now by_event).1 with _ | evt
  · obtain ⟨h2eq, -⟩ := pass2_none h2
    have heq := pass3_eq_of_pass2_none h2
    rw [heq, h2eq] at h
    have hall := (passLoop_eq_none by_event _ h).2
    intro p hp
    have hp' := hall p hp
    by_contra hfin
    rcases hc : group_close fromIso p.2 with q | _
    · exact hp' ⟨rfl, by rw [hc]; rfl⟩
    · exact hfin hc
  · have : pass3 fromIso now by_event = pass2 fromIso now by_event := by
      simp only [pass3, h2]
    rw [this, h2] at h
    simp at h

/-- Whatever pass produced the final best event, its key is one of the
groups'. -/
lemma pass3_some_key {fromIso : String → Option ℚ} {now : ℚ}
    {by_event : List (String × List Market)} {evt : String}
    (h : (pass3 fromIso now by_event).1 = some evt) :
    ∃ p ∈ by_event, p.1 = evt := by
  have hkey : ∀ (pred : EVal → Bool) (b : Option String × EVal),
      b.1 = none → (passLoop (group_close fromIso) pred by_event b).1 = some evt →
      ∃ p ∈ by_event, p.1 = evt := by
    intro pred b hb hsome
    rcases (passLoop_spec (group_close fromIso) pred by_event b).2.2 with
      heq | ⟨p, hmem, -, -, hfst, -⟩
    · rw [heq, hb] at hsome
      simp at hsome
    · rw [hsome] at hfst
      exact ⟨p, hmem, (Option.some.inj hfst).symm⟩
  rcases h2 : (pass2 fromIso now by_event).1 with _ | e2
  · obtain ⟨h2eq, -⟩ := pass2_none h2
    rw [pass3_eq_of_pass2_none h2] at h
    exact hkey _ _ (by rw [h2eq]) h
  · have h32 : pass3 fromIso now by_event = pass2 fromIso now by_event := by
      simp only [pass3, h2]
    rw [h32] at h
    rcases h1 : (pass1 fromIso now by_event).1 with _ | e1
    · rw [pass2_eq_of_pass1_none h1] at h
      exact hkey _ _ (by rw [pass1_none h1]) h
    · have h21 : pass2 fromIso now by_event = pass1 fromIso now by_event := by
        simp only [pass2, h1]
      rw [h21] at h
      exact hkey _ _ rfl (by rw [pass1] at h; exact h)

/-- If some group's close time is finite, the three-pass selection settles on
a best event that is one of the groups' keys, and returns its looked-up
members. -/
lemma pick_result_of_finite {fromIso : String → Option ℚ} (now : ℚ)
    {by_event : List (String × List Market)} {p0 : String × List Market} {q0 : ℚ}
    (hp : p0 ∈ by_event) (hfin : group_close fromIso p0.2 = .fin q0) :
    ∃ evt, (pick_soonest_future_event fromIso now by_event).1 = some evt ∧
      (∃ p ∈ by_event, p.1 = evt) ∧
      (pick_soonest_future_event fromIso now by_event).2 = lookupGroup by_event evt := by
  have hne : ¬by_event = [] := by rintro rfl; simp at hp
  rcases h3 : (pass3 fromIso now by_event).1 with _ | evt
  · exact absurd hfin (by rw [pass3_none h3 p0 hp]; simp)
  · exact ⟨evt, by rw [pick_eq_pass3 fromIso now by_event hne, h3],
      pass3_some_key h3, by rw [pick_eq_pass3 fromIso now by_event hne, h3]⟩

/-! ## Lemmas about the order loop -/

lemma buy_foldl_eq (side_strategy : String) (use_market_orders : Bool) (coin : Nat → Bool)
    (post : Nat → OrderBody → Except PostError Resp) :
    ∀ (ts : List Market) (i : Nat) (subs : List OrderBody) (results : List (String × Resp)),
      ts.foldl (buy_step side_strategy use_market_orders coin post) (i, subs, results)
        = (i + ts.length,
            subs ++ submitted_bodies side_strategy use_market_orders coin i ts,
            results ++ successful_results side_strategy use_market_orders coin post i ts) := by
  intro ts
  induction ts with
  | nil => intro i subs results; simp [submitted_bodies, successful_results]
  | cons m ms ih =>
    intro i subs results
    rcases hpost : post i (order_body_for m (_choose_side side_strategy (coin i)) use_market_orders)
      with e | r
    · rw [List.foldl_cons, show buy_step side_strategy use_market_orders coin post
          (i, subs, results) m
          = (i + 1,
              subs ++ [order_body_for m (_choose_side side_strategy (coin i)) use_market_orders],
              results) from by simp [buy_step, hpost], ih]
      simp [submitted_bodies, successful_results, hpost, Nat.add_comm, Nat.add_left_comm]
    · rw [List.foldl_cons, show buy_step side_strategy use_market_orders coin post
          (i, subs, results) m
          = (i + 1,
              subs ++ [order_body_for m (_choose_side side_strategy (coin i)) use_market_orders],
              results ++ [(m.ticker, r)]) from by simp [buy_step, hpost], ih]
      simp [submitted_bodies, successful_results, hpost, Nat.add_comm, Nat.add_left_comm]

lemma submitted_bodies_length (side_strategy : String) (use_market_orders : Bool)
    (coin : Nat → Bool) :
    ∀ (i : Nat) (ts : List Market),
      (submitted_bodies side_strategy use_market_orders coin i ts).length = ts.length
  | _, [] => rfl
  | i, _ :: ms => by
    simp [submitted_bodies, submitted_bodies_length side_strategy use_market_orders coin (i + 1) ms]

/-- With any `choose` other than `"one_random"`, the loop runs over the whole
pool. -/
lemma buy_from_pool_default_branch (pool : List Market) (key pem : String)
    {choose : String} (hc : choose ≠ "one_random") (side_strategy : String)
    (use_market_orders : Bool) (randIdx : Nat) (coin : Nat → Bool)
    (post : Nat → OrderBody → Except PostError Resp) :
    buy_from_pool pool key pem choose side_strategy use_market_orders randIdx coin post
      = (submitted_bodies side_strategy use_market_orders coin 0 pool,
         successful_results side_strategy use_market_orders coin post 0 pool) := by
  by_cases hp : pool = []
  · subst hp
    simp [buy_from_pool, submitted_bodies, successful_results]
  · simp only [buy_from_pool, if_neg hp, if_neg hc]
    rw [buy_foldl_eq]
    simp

/-! ## Claim theorems -/

/-- Claim C5: a contract in a selected event's member set is kept by the
filter iff its yes spread is strictly below 30, its no spread is strictly
below 30, and its liquidity is at least 1000; in particular quotes
40/55 and 45/60 with liquidity 1000 are kept, and the same quotes with
liquidity 999 are excluded. -/
theorem filter_keeps_iff_spread_liquidity :
    (∀ m : Market, passes_filter m = true ↔
      (EVal.lt (yes_spread m) (.fin 30) = true ∧ EVal.lt (no_spread m) (.fin 30) = true ∧
        1000 ≤ m.liq)) ∧
    (∀ (ladder : List Market) (m : Market), m ∈ ladder.filter passes_filter ↔
      (m ∈ ladder ∧ EVal.lt (yes_spread m) (.fin 30) = true ∧
        EVal.lt (no_spread m) (.fin 30) = true ∧ 1000 ≤ m.liq)) ∧
    passes_filter exKeep = true ∧ passes_filter exLowLiq = false := by
  have hiff : ∀ m : Market, passes_filter m = true ↔
      (EVal.lt (yes_spread m) (.fin 30) = true ∧ EVal.lt (no_spread m) (.fin 30) = true ∧
        1000 ≤ m.liq) := by
    intro m
    simp [passes_filter, MAX_SPREAD_CENTS, MIN_LIQUIDITY_CENTS, Bool.and_eq_true,
      decide_eq_true_eq, and_assoc]
  refine ⟨hiff, ?_, ?_, ?_⟩
  · intro ladder m
    rw [List.mem_filter, hiff]
  · norm_num [passes_filter, exKeep, yes_spread, no_spread, Market.liq, EVal.lt,
      MAX_SPREAD_CENTS, MIN_LIQUIDITY_CENTS]
  · norm_num [passes_filter, exLowLiq, exKeep, yes_spread, no_spread, Market.liq, EVal.lt,
      MAX_SPREAD_CENTS, MIN_LIQUIDITY_CENTS]

/-- Claim C6: a side's spread is infinite exactly when the bid or ask for
that side is missing/non-numeric, or bid and ask are both 0 or both 100;
otherwise the spread is ask minus bid; and an infinite spread makes the
contract fail the filter regardless of liquidity. -/
theorem spread_inf_characterization :
    ∀ m : Market,
      ((yes_spread m = .inf) ↔
        (m.yes_bid.isNum = false ∨ m.yes_ask.isNum = false ∨
          (m.yes_bid = .num 0 ∧ m.yes_ask = .num 0) ∨
          (m.yes_bid = .num 100 ∧ m.yes_ask = .num 100))) ∧
      (∀ yb ya : ℚ, m.yes_bid = .num yb → m.yes_ask = .num ya →
        ¬((yb = 0 ∧ ya = 0) ∨ (yb = 100 ∧ ya = 100)) → yes_spread m = .fin (ya - yb)) ∧
      ((no_spread m = .inf) ↔
        (m.no_bid.isNum = false ∨ m.no_ask.isNum = false ∨
          (m.no_bid = .num 0 ∧ m.no_ask = .num 0) ∨
          (m.no_bid = .num 100 ∧ m.no_ask = .num 100))) ∧
      (∀ nb na : ℚ, m.no_bid = .num nb → m.no_ask = .num na →
        ¬((nb = 0 ∧ na = 0) ∨ (nb = 100 ∧ na = 100)) → no_spread m = .fin (na - nb)) ∧
      (yes_spread m = .inf → passes_filter m = false) ∧
      (no_spread m = .inf → passes_filter m = false) := by
  intro m
  refine ⟨?_, ?_, ?_, ?_, ?_, ?_⟩
  · rcases hyb : m.yes_bid with yb | _ <;> rcases hya : m.yes_ask with ya | _
    · by_cases hd : (yb = 0 ∧ ya = 0) ∨ (yb = 100 ∧ ya = 100)
      · simp [yes_spread, hyb, hya, hd]
      · simp [yes_spread, hyb, hya, PVal.isNum, hd]
    · simp [yes_spread, hyb, hya, PVal.isNum]
    · simp [yes_spread, hyb, hya, PVal.isNum]
    · simp [yes_spread, hyb, hya, PVal.isNum]
  · intro yb ya h1 h2 hnd
    simp [yes_spread, h1, h2, hnd]
  · rcases hnb : m.no_bid with nb | _ <;> rcases hna : m.no_ask with na | _
    · by_cases hd : (nb = 0 ∧ na = 0) ∨ (nb = 100 ∧ na = 100)
      · simp [no_spread, hnb, hna, hd]
      · simp [no_spread, hnb, hna, PVal.isNum, hd]
    · simp [no_spread, hnb, hna, PVal.isNum]
    · simp [no_spread, hnb, hna, PVal.isNum]
    · simp [no_spread, hnb, hna, PVal.isNum]
  · intro nb na h1 h2 hnd
    simp [no_spread, h1, h2, hnd]
  · intro h
    simp [passes_filter, h, EVal.lt]
  · intro h
    simp [passes_filter, h, EVal.lt]

/-- Witness for C6 at a concrete market: both hypotheses of the value clause
hold for quotes 40/55, giving yes spread 15. -/
theorem spread_inf_characterization_witness :
    (exKeep.yes_bid = PVal.num 40 ∧ exKeep.yes_ask = PVal.num 55 ∧
      ¬(((40 : ℚ) = 0 ∧ (55 : ℚ) = 0) ∨ ((40 : ℚ) = 100 ∧ (55 : ℚ) = 100))) ∧
    yes_spread exKeep = .fin 15 := by
  have hnd : ¬(((40 : ℚ) = 0 ∧ (55 : ℚ) = 0) ∨ ((40 : ℚ) = 100 ∧ (55 : ℚ) = 100)) := by
    norm_num
  refine ⟨⟨rfl, rfl, hnd⟩, ?_⟩
  have h := (spread_inf_characterization exKeep).2.1 40 55 rfl rfl hnd
  rw [h]
  norm_num

lemma limit_price_bounds (side : Side) (m : Market) (buf : ℚ) :
    1 ≤ _limit_price_cents_for_buy side m buf ∧ _limit_price_cents_for_buy side m buf ≤ 99 := by
  simp only [_limit_price_cents_for_buy]
  exact ⟨le_max_left _ _, max_le (by norm_num) (min_le_left _ _)⟩

lemma mem_submitted_bodies {strat : String} {useMkt : Bool} {coin : Nat → Bool} :
    ∀ (ts : List Market) (i : Nat) (b : OrderBody),
      b ∈ submitted_bodies strat useMkt coin i ts →
      ∃ m side, b = order_body_for m side useMkt := by
  intro ts
  induction ts with
  | nil => intro i b h; simp [submitted_bodies] at h
  | cons m ms ih =>
    intro i b h
    simp only [submitted_bodies] at h
    rcases List.mem_cons.mp h with rfl | h
    · exact ⟨m, _, rfl⟩
    · exact ih (i + 1) b h

lemma order_body_for_price {m : Market} {side : Side} {p : ℤ}
    (h : (order_body_for m side false).yes_price = some p ∨
      (order_body_for m side false).no_price = some p) :
    1 ≤ p ∧ p ≤ 99 := by
  rcases side with _ | _
  · simp [order_body_for] at h
    rw [← h]
    exact limit_price_bounds .yes m 2
  · simp [order_body_for] at h
    rw [← h]
    exact limit_price_bounds .no m 2

/-- Whatever the mode, the submitted bodies are those of some target list. -/
lemma buy_from_pool_subs (pool : List Market) (key pem choose strat : String)
    (useMkt : Bool) (randIdx : Nat) (coin : Nat → Bool)
    (post : Nat → OrderBody → Except PostError Resp) :
    ∃ ts : List Market,
      (buy_from_pool pool key pem choose strat useMkt randIdx coin post).1
        = submitted_bodies strat useMkt coin 0 ts := by
  by_cases hp : pool = []
  · exact ⟨[], by simp [buy_from_pool, hp, submitted_bodies]⟩
  · by_cases hc : choose = "one_random"
    · subst hc
      rcases hg : pool.get? (randIdx % pool.length) with _ | m
      · refine ⟨[], ?_⟩
        simp only [buy_from_pool, if_neg hp, if_pos rfl, hg]
        rw [buy_foldl_eq]
        simp
      · refine ⟨[m], ?_⟩
        simp only [buy_from_pool, if_neg hp, if_pos rfl, hg]
        rw [buy_foldl_eq]
        simp
    · exact ⟨pool,
        by rw [buy_from_pool_default_branch pool key pem hc strat useMkt randIdx coin post]⟩

/-- Claim C8: a limit price is always an integer in [1, 99] — both at the
pricing function itself (for any buffer) and on every order body submitted
by `buy_from_pool` with limit orders. -/
theorem order_price_in_range :
    (∀ (side : Side) (m : Market) (buf : ℚ),
      1 ≤ _limit_price_cents_for_buy side m buf ∧ _limit_price_cents_for_buy side m buf ≤ 99) ∧
    (∀ (pool : List Market) (key pem choose strat : String) (randIdx : Nat)
      (coin : Nat → Bool) (post : Nat → OrderBody → Except PostError Resp)
      (b : OrderBody) (p : ℤ),
      b ∈ (buy_from_pool pool key pem choose strat false randIdx coin post).1 →
      (b.yes_price = some p ∨ b.no_price = some p) → 1 ≤ p ∧ p ≤ 99) := by
  refine ⟨limit_price_bounds, ?_⟩
  intro pool key pem choose strat randIdx coin post b p hb hp
  obtain ⟨ts, hts⟩ := buy_from_pool_subs pool key pem choose strat false randIdx coin post
  rw [hts] at hb
  obtain ⟨m, side, rfl⟩ := mem_submitted_bodies ts 0 b hb
  exact order_body_for_price hp

/-- Witness for C8: the order body submitted for the 40/55 market carries
yes price 57, which the theorem places in [1, 99]. -/
theorem order_price_in_range_witness : 1 ≤ (57 : ℤ) ∧ (57 : ℤ) ≤ 99 := by
  have hb : order_body_for exKeep Side.yes false
      ∈ (buy_from_pool [exKeep] "k" "p" "all" "yes" false 0 (fun _ => true) postFailSecond).1 := by
    rw [buy_from_pool_default_branch [exKeep] "k" "p" (by decide) "yes" false 0 (fun _ => true)
      postFailSecond]
    simp [submitted_bodies, _choose_side]
  have hp : (order_body_for exKeep Side.yes false).yes_price = some 57 ∨
      (order_body_for exKeep Side.yes false).no_price = some 57 := by
    left
    norm_num [order_body_for, _limit_price_cents_for_buy, exKeep, pyRound]
  exact order_price_in_range.2 [exKeep] "k" "p" "all" "yes" 0 (fun _ => true)
    postFailSecond _ 57 hb hp

/-- Claim C9: in mode "all" over a pool of N contracts, exactly N
submissions are attempted (one order body per contract, independent of the
post outcomes), and the returned results are exactly the successful
(ticker, response) pairs. -/
theorem buy_all_attempts_every_target :
    ∀ (pool : List Market) (key pem strat : String) (useMkt : Bool) (randIdx : Nat)
      (coin : Nat → Bool) (post post2 : Nat → OrderBody → Except PostError Resp),
      (buy_from_pool pool key pem "all" strat useMkt randIdx coin post).1.length = pool.length ∧
      (buy_from_pool pool key pem "all" strat useMkt randIdx coin post).1
        = submitted_bodies strat useMkt coin 0 pool ∧
      (buy_from_pool pool key pem "all" strat useMkt randIdx coin post).2
        = successful_results strat useMkt coin post 0 pool ∧
      (buy_from_pool pool key pem "all" strat useMkt randIdx coin post).1
        = (buy_from_pool pool key pem "all" strat useMkt randIdx coin post2).1 := by
  intro pool key pem strat useMkt randIdx coin post post2
  rw [buy_from_pool_default_branch pool key pem (by decide) strat useMkt randIdx coin post,
    buy_from_pool_default_branch pool key pem (by decide) strat useMkt randIdx coin post2]
  exact ⟨submitted_bodies_length strat useMkt coin 0 pool, rfl, rfl, rfl⟩

/-- Claim C10: any `choose` value other than the exact string "one_random"
takes the default branch and targets every contract in the pool. -/
theorem buy_default_branch_targets_all :
    ∀ (choose : String), choose ≠ "one_random" →
      ∀ (pool : List Market) (key pem strat : String) (useMkt : Bool) (randIdx : Nat)
        (coin : Nat → Bool) (post : Nat → OrderBody → Except PostError Resp),
        (buy_from_pool pool key pem choose strat useMkt randIdx coin post).1
          = submitted_bodies strat useMkt coin 0 pool ∧
        (buy_from_pool pool key pem choose strat useMkt randIdx coin post).1.length
          = pool.length := by
  intro choose hc pool key pem strat useMkt randIdx coin post
  rw [buy_from_pool_default_branch pool key pem hc strat useMkt randIdx coin post]
  exact ⟨rfl, submitted_bodies_length strat useMkt coin 0 pool⟩

/-- Witness for C10: the misspelling "one_randoM" still targets all three
contracts of a three-element pool. -/
theorem buy_default_branch_targets_all_witness :
    ("one_randoM" : String) ≠ "one_random" ∧
    (buy_from_pool [exKeep, mEvt3, mEvt10] "k" "p" "one_randoM" "no" false 0 (fun _ => true)
      postFailSecond).1.length = 3 := by
  refine ⟨by decide, ?_⟩
  have h := (buy_default_branch_targets_all "one_randoM" (by decide) [exKeep, mEvt3, mEvt10]
    "k" "p" "no" false 0 (fun _ => true) postFailSecond).2
  simpa using h

/-- Counterexample to claim C2: with a numeric out-of-range ask of −5 and
buffer 2, the computed price is 1 (the ask is used as-is and the sum −3 is
clamped up), not the claimed 52. -/
theorem limit_price_negative_ask_cex :
    _limit_price_cents_for_buy .yes exAskNeg = 1 ∧
    _limit_price_cents_for_buy .yes exAskNeg ≠ 52 := by
  have h : _limit_price_cents_for_buy .yes exAskNeg = 1 := by
    norm_num [_limit_price_cents_for_buy, exAskNeg, exKeep, pyRound]
  exact ⟨h, by rw [h]; norm_num⟩

/-- Claim C2 (amended): the neutral default 50 is substituted only when the
side's ask is absent/non-numeric (pricing at 52 with buffer 2); a numeric
ask is used as-is even when out of range — ask 97 prices at 99 (clamped
down) and ask −5 prices at 1 (clamped up), not 52. -/
theorem limit_price_default_only_nonnumeric :
    ∀ m : Market,
      (m.yes_ask = .nonnum → _limit_price_cents_for_buy .yes m = 52) ∧
      (m.no_ask = .nonnum → _limit_price_cents_for_buy .no m = 52) ∧
      (∀ q : ℚ, m.yes_ask = .num q →
        _limit_price_cents_for_buy .yes m = max 1 (min 99 (pyRound (q + 2)))) ∧
      (m.yes_ask = .num 97 → _limit_price_cents_for_buy .yes m = 99) ∧
      (m.yes_ask = .num (-5) → _limit_price_cents_for_buy .yes m = 1) := by
  intro m
  refine ⟨?_, ?_, ?_, ?_, ?_⟩
  · intro h
    norm_num [_limit_price_cents_for_buy, h, pyRound]
  · intro h
    norm_num [_limit_price_cents_for_buy, h, pyRound]
  · intro q h
    simp [_limit_price_cents_for_buy, h]
  · intro h
    norm_num [_limit_price_cents_for_buy, h, pyRound]
  · intro h
    norm_num [_limit_price_cents_for_buy, h, pyRound]

/-- Witness for C2 (amended): a market with a non-numeric yes ask is priced
at 52. -/
theorem limit_price_default_only_nonnumeric_witness :
    exAskMissing.yes_ask = PVal.nonnum ∧ _limit_price_cents_for_buy .yes exAskMissing = 52 :=
  ⟨rfl, (limit_price_default_only_nonnumeric exAskMissing).1 rfl⟩

/-- Counterexample to claim C3: the PSS padding constructed by
`sign_request` carries the digest-length salt option, not the maximal one —
a probe signer returning byte 0 under maximal salt and byte 255 otherwise
yields "/w==", not the "AA==" that maximal salt would give. -/
theorem sign_request_salt_length_cex :
    signPadding.saltLength ≠ SaltLength.maxLength ∧
    sign_request probeSign "POST" "/trade-api/v2/portfolio/orders" "body" "1700000000000"
      = "/w==" ∧
    b64encode (probeSign { mgf1Hash := .sha256, saltLength := .maxLength } HashAlg.sha256
      (message_string "1700000000000" "POST" "/trade-api/v2/portfolio/orders")) = "AA==" ∧
    ("/w==" : String) ≠ "AA==" := by
  refine ⟨by decide, rfl, rfl, by decide⟩

/-- Claim C3 (amended): `sign_request` signs exactly the concatenation of
the millisecond timestamp string, the method, and the path with any query
string stripped — the body is excluded — using RSA-PSS with SHA-256 (MGF1
over SHA-256) and a salt length equal to the digest length (not maximal),
and returns the base64 encoding of the raw signature. -/
theorem sign_request_message_and_padding :
    (∀ (rsaSign : PSSParams → HashAlg → String → List Nat) (method path body ts : String),
      sign_request rsaSign method path body ts
        = b64encode (rsaSign { mgf1Hash := .sha256, saltLength := .digestLength } .sha256
            (ts ++ method ++ path_without_query path))) ∧
    (∀ (rsaSign : PSSParams → HashAlg → String → List Nat) (method path body1 body2 ts : String),
      sign_request rsaSign method path body1 ts = sign_request rsaSign method path body2 ts) ∧
    signPadding = { mgf1Hash := .sha256, saltLength := .digestLength } ∧
    message_string "123" "POST" "/a/b?x=1&y=2" = "123POST/a/b" ∧
    path_without_query "/trade-api/v2/portfolio/orders" = "/trade-api/v2/portfolio/orders" := by
  refine ⟨fun _ _ _ _ _ => rfl, fun _ _ _ _ _ _ => rfl, rfl, by decide, by decide⟩

/-- Counterexample to claim C4: one open contract was fetched (a non-empty
market list whose contract has an event ticker), yet with an unparseable
close time all three passes fail and the selection is empty. -/
theorem pick_event_unparseable_cex :
    ([exUnparseable] : List Market) ≠ [] ∧
    exUnparseable.event_ticker = some "EVX" ∧
    pick_soonest_future_event fromIsoNone 0 (group_by_event [exUnparseable]) = (none, []) := by
  refine ⟨by simp, rfl, rfl⟩

/-- Claim C4 (amended): whenever at least one fetched contract has a
(non-empty) event ticker and a parseable close time, the three-pass
selection returns a non-empty result (an event id and a non-empty member
list). -/
theorem pick_event_nonempty_of_parseable :
    ∀ (fromIso : String → Option ℚ) (now : ℚ) (markets : List Market) (m : Market)
      (e : String) (t : ℚ),
      m ∈ markets → m.event_ticker = some e → e ≠ "" → fromIso m.close_time = some t →
      (pick_soonest_future_event fromIso now (group_by_event markets)).1 ≠ none ∧
      (pick_soonest_future_event fromIso now (group_by_event markets)).2 ≠ [] := by
  intro fromIso now markets m e t hm he hne ht
  obtain ⟨g, hg, hmg⟩ := mem_group_by_event hm he hne
  have hle := group_close_le_mem fromIso hmg
  simp only [parse_iso_utc, ht] at hle
  obtain ⟨q, hq, -⟩ := EVal.le_fin_imp hle
  obtain ⟨evt, hfst, hex, hsnd⟩ := pick_result_of_finite now hg hq
  constructor
  · rw [hfst]
    simp
  · rw [hsnd]
    exact group_by_event_ne_nil (evt, lookupGroup (group_by_event markets) evt)
      (lookupGroup_mem hex)

/-- Witness for C4 (amended): a single market with event ticker "EV" and a
close time parsing to 400 yields a non-empty selection. -/
theorem pick_event_nonempty_of_parseable_witness :
    (exKeep ∈ [exKeep] ∧ exKeep.event_ticker = some "EV" ∧ ("EV" : String) ≠ "" ∧
      fromIsoGood exKeep.close_time = some 400) ∧
    (pick_soonest_future_event fromIsoGood 0 (group_by_event [exKeep])).1 ≠ none ∧
    (pick_soonest_future_event fromIsoGood 0 (group_by_event [exKeep])).2 ≠ [] := by
  refine ⟨⟨by simp, rfl, by decide, rfl⟩, ?_⟩
  exact pick_event_nonempty_of_parseable fromIsoGood 0 [exKeep] exKeep "EV" 400
    (by simp) rfl (by decide) rfl

lemma finiteGE_imp_le {c : EVal} {bound : ℚ} (h : finiteGE c bound = true) :
    EVal.le (.fin bound) c = true := by
  rcases c with q | _
  · simpa [finiteGE, EVal.le] using h
  · simp [finiteGE] at h

lemma finiteGE_of_le_lt {c : EVal} {bound : ℚ}
    (h1 : EVal.le (.fin bound) c = true) (h2 : EVal.lt c .inf = true) :
    finiteGE c bound = true := by
  rcases c with q | _
  · simpa [finiteGE, EVal.le] using h1
  · simp [EVal.lt] at h2

lemma finiteGE_mono {c : EVal} {b1 b2 : ℚ} (h : b2 ≤ b1) (hc : finiteGE c b1 = true) :
    finiteGE c b2 = true := by
  rcases c with q | _
  · simp [finiteGE] at hc ⊢
    linarith
  · simp [finiteGE] at hc

/-- A pass starting from the initial state returns a winner among the
elements that satisfy the predicate with a finite close time, minimal among
them, whenever one exists. -/
lemma passLoop_init_some (ctOf : List Market → EVal) (pred : EVal → Bool)
    {l : List (String × List Market)} {p0 : String × List Market}
    (hp : p0 ∈ l) (hpred : pred (ctOf p0.2) = true)
    (hfin : EVal.lt (ctOf p0.2) .inf = true) :
    ∃ p ∈ l, pred (ctOf p.2) = true ∧ EVal.lt (ctOf p.2) .inf = true ∧
      (passLoop ctOf pred l (none, .inf)).1 = some p.1 ∧
      (passLoop ctOf pred l (none, .inf)).2 = ctOf p.2 ∧
      ∀ q ∈ l, pred (ctOf q.2) = true → EVal.le (ctOf p.2) (ctOf q.2) = true := by
  obtain ⟨hle, hnobeat, hor⟩ := passLoop_spec ctOf pred l (none, .inf)
  rcases hor with heq | ⟨p, hmem, hp2, hlt, h1, h2⟩
  · have := (passLoop_eq_none l (none, .inf) (by rw [heq])).2 p0 hp
    exact absurd ⟨hpred, hfin⟩ this
  · refine ⟨p, hmem, hp2, hlt, h1, h2, ?_⟩
    intro q hq hqp
    have hq2 := hnobeat q hq hqp
    rw [h2] at hq2
    exact (EVal.not_lt _ _).mp hq2

/-- A pass starting from the initial state with no eligible element changes
nothing. -/
lemma passLoop_init_none {ctOf : List Market → EVal} {pred : EVal → Bool}
    {l : List (String × List Market)}
    (h : ∀ p ∈ l, ¬(pred (ctOf p.2) = true ∧ EVal.lt (ctOf p.2) .inf = true)) :
    passLoop ctOf pred l (none, .inf) = (none, .inf) := by
  obtain ⟨-, -, hor⟩ := passLoop_spec ctOf pred l (none, .inf)
  rcases hor with heq | ⟨p, hmem, hp2, hlt, -, -⟩
  · exact heq
  · exact absurd ⟨hp2, hlt⟩ (h p hmem)

/-- Pass-1 case: some group has a finite close time ≥ now + buffer; the
selector picks a minimal such group. -/
lemma pick_pass1_case {fromIso : String → Option ℚ} {now : ℚ}
    {by_event : List (String × List Market)}
    (hex : ∃ p ∈ by_event, finiteGE (group_close fromIso p.2)
      (now + MIN_TIME_BUFFER_MINUTES * 60) = true) :
    ∃ p ∈ by_event,
      finiteGE (group_close fromIso p.2) (now + MIN_TIME_BUFFER_MINUTES * 60) = true ∧
      (pick_soonest_future_event fromIso now by_event).1 = some p.1 ∧
      ∀ q ∈ by_event,
        finiteGE (group_close fromIso q.2) (now + MIN_TIME_BUFFER_MINUTES * 60) = true →
        EVal.le (group_close fromIso p.2) (group_close fromIso q.2) = true := by
  obtain ⟨p0, hp0, hge⟩ := hex
  have hne : ¬by_event = [] := by rintro rfl; simp at hp0
  have hfin0 : EVal.lt (group_close fromIso p0.2) .inf = true := by
    obtain ⟨q, hq, -⟩ := (finiteGE_iff _ _).mp hge
    rw [hq]
    rfl
  obtain ⟨p, hmem, hpredp, hfinp, h1, h2, hmin⟩ :=
    passLoop_init_some (group_close fromIso)
      (fun ct => EVal.le (.fin (now + MIN_TIME_BUFFER_MINUTES * 60)) ct)
      hp0 (finiteGE_imp_le hge) hfin0
  have hp1 : (pass1 fromIso now by_event).1 = some p.1 := h1
  have hpick := pick_eq_pass3 fromIso now by_event hne
  simp only [pass3, pass2, hp1] at hpick
  refine ⟨p, hmem, finiteGE_of_le_lt hpredp hfinp, by rw [hpick], ?_⟩
  intro q hq hq'
  exact hmin q hq (finiteGE_imp_le hq')

/-- Pass-2 case: no group passes the buffered test, but some group has a
finite close time ≥ now; the selector picks a minimal such group. -/
lemma pick_pass2_case {fromIso : String → Option ℚ} {now : ℚ}
    {by_event : List (String × List Market)}
    (hnone1 : ∀ p ∈ by_event, finiteGE (group_close fromIso p.2)
      (now + MIN_TIME_BUFFER_MINUTES * 60) = false)
    (hex : ∃ p ∈ by_event, finiteGE (group_close fromIso p.2) now = true) :
    ∃ p ∈ by_event, finiteGE (group_close fromIso p.2) now = true ∧
      (pick_soonest_future_event fromIso now by_event).1 = some p.1 ∧
      ∀ q ∈ by_event, finiteGE (group_close fromIso q.2) now = true →
        EVal.le (group_close fromIso p.2) (group_close fromIso q.2) = true := by
  obtain ⟨p0, hp0, hge⟩ := hex
  have hne : ¬by_event = [] := by rintro rfl; simp at hp0
  have hfin0 : EVal.lt (group_close fromIso p0.2) .inf = true := by
    obtain ⟨q, hq, -⟩ := (finiteGE_iff _ _).mp hge
    rw [hq]
    rfl
  have hp1none : pass1 fromIso now by_event = (none, .inf) := by
    apply passLoop_init_none
    intro p hp hcon
    obtain ⟨hpred, hfin⟩ := hcon
    have hc := finiteGE_of_le_lt hpred hfin
    rw [hnone1 p hp] at hc
    exact absurd hc (by simp)
  have hp2eq : pass2 fromIso now by_event
      = passLoop (group_close fromIso) (fun ct => EVal.le (.fin now) ct) by_event (none, .inf) := by
    rw [pass2_eq_of_pass1_none (by rw [hp1none]), hp1none]
  obtain ⟨p, hmem, hpredp, hfinp, h1, h2, hmin⟩ :=
    passLoop_init_some (group_close fromIso)
      (fun ct => EVal.le (.fin now) ct) hp0 (finiteGE_imp_le hge) hfin0
  have hp2some : (pass2 fromIso now by_event).1 = some p.1 := by rw [hp2eq]; exact h1
  have hpick := pick_eq_pass3 fromIso now by_event hne
  simp only [pass3, hp2some] at hpick
  refine ⟨p, hmem, finiteGE_of_le_lt hpredp hfinp, by rw [hpick], ?_⟩
  intro q hq hq'
  exact hmin q hq (finiteGE_imp_le hq')

/-- Pass-3 (emergency) case: no group has a finite close time ≥ now, but
some group has a finite close time at all; the selector picks a minimal
close-time group even though it already closed. -/
lemma pick_pass3_case {fromIso : String → Option ℚ} {now : ℚ}
    {by_event : List (String × List Market)}
    (hnone2 : ∀ p ∈ by_event, finiteGE (group_close fromIso p.2) now = false)
    (hex : ∃ p ∈ by_event, group_close fromIso p.2 ≠ .inf) :
    ∃ p ∈ by_event, (pick_soonest_future_event fromIso now by_event).1 = some p.1 ∧
      ∀ q ∈ by_event,
        EVal.le (group_close fromIso p.2) (group_close fromIso q.2) = true := by
  obtain ⟨p0, hp0, hfin⟩ := hex
  have hne : ¬by_event = [] := by rintro rfl; simp at hp0
  have hfin0 : EVal.lt (group_close fromIso p0.2) .inf = true := by
    rcases hc : group_close fromIso p0.2 with q | _
    · rfl
    · exact absurd hc hfin
  have hmono : now ≤ now + MIN_TIME_BUFFER_MINUTES * 60 := by
    norm_num [MIN_TIME_BUFFER_MINUTES]
  have hnone1 : ∀ p ∈ by_event, finiteGE (group_close fromIso p.2)
      (now + MIN_TIME_BUFFER_MINUTES * 60) = false := by
    intro p hp
    cases hb : finiteGE (group_close fromIso p.2) (now + MIN_TIME_BUFFER_MINUTES * 60) with
    | false => rfl
    | true =>
      have hc := finiteGE_mono hmono hb
      rw [hnone2 p hp] at hc
      exact absurd hc (by simp)
  have hp1none : pass1 fromIso now by_event = (none, .inf) := by
    apply passLoop_init_none
    intro p hp hcon
    obtain ⟨hpred, hfin'⟩ := hcon
    have hc := finiteGE_of_le_lt hpred hfin'
    rw [hnone1 p hp] at hc
    exact absurd hc (by simp)
  have hp2none : pass2 fromIso now by_event = (none, .inf) := by
    rw [pass2_eq_of_pass1_none (by rw [hp1none]), hp1none]
    apply passLoop_init_none
    intro p hp hcon
    obtain ⟨hpred, hfin'⟩ := hcon
    have hc := finiteGE_of_le_lt hpred hfin'
    rw [hnone2 p hp] at hc
    exact absurd hc (by simp)
  have hp3eq : pass3 fromIso now by_event
      = passLoop (group_close fromIso) (fun _ => true) by_event (none, .inf) := by
    rw [pass3_eq_of_pass2_none (by rw [hp2none]), hp2none]
  obtain ⟨p, hmem, -, -, h1, h2, hmin⟩ :=
    passLoop_init_some (group_close fromIso) (fun _ => true) hp0 rfl hfin0
  have hp3some : (pass3 fromIso now by_event).1 = some p.1 := by rw [hp3eq]; exact h1
  have hpick := pick_eq_pass3 fromIso now by_event hne
  simp only [hp3some] at hpick
  refine ⟨p, hmem, by rw [hpick], ?_⟩
  intro q hq
  exact hmin q hq rfl

/-- Counterexample to claim C7: a single group whose close time is
unparseable (treated as infinitely far in the future) satisfies the claimed
pass-1 criterion of closing at least 5 minutes after now — its close time is
`inf` ≥ now + 5 min, and it is trivially the minimum among such groups — yet
the selector returns the empty result instead of picking it. -/
theorem pick_event_pass1_inf_cex :
    EVal.le (.fin (100 + MIN_TIME_BUFFER_MINUTES * 60))
      (group_close fromIsoNone [exUnparseable7]) = true ∧
    pick_soonest_future_event fromIsoNone 100 [("E7", [exUnparseable7])] = (none, []) :=
  ⟨rfl, rfl⟩

/-- Claim C7 (amended): with every pass restricted to groups whose close
time is finite (parseable), selection proceeds in three ordered passes —
pass 1 takes the minimum close time among groups with finite close time at
least now + 5 min (buffer 5 min = 300 s); only if none exists, pass 2
relaxes the bound to now; only if none exists, pass 3 takes the globally
minimum finite close time regardless of closing; groups whose close time is
infinite are never selected.  With events closing at now+3min and now+10min,
pass 1 selects the now+10min event; with only the now+3min event, pass 2
selects it. -/
theorem pick_event_three_pass_spec :
    (MIN_TIME_BUFFER_MINUTES * 60 = (300 : ℚ)) ∧
    (∀ (fromIso : String → Option ℚ) (now : ℚ) (by_event : List (String × List Market)),
      (∃ p ∈ by_event, finiteGE (group_close fromIso p.2)
        (now + MIN_TIME_BUFFER_MINUTES * 60) = true) →
      ∃ p ∈ by_event,
        finiteGE (group_close fromIso p.2) (now + MIN_TIME_BUFFER_MINUTES * 60) = true ∧
        (pick_soonest_future_event fromIso now by_event).1 = some p.1 ∧
        ∀ q ∈ by_event,
          finiteGE (group_close fromIso q.2) (now + MIN_TIME_BUFFER_MINUTES * 60) = true →
          EVal.le (group_close fromIso p.2) (group_close fromIso q.2) = true) ∧
    (∀ (fromIso : String → Option ℚ) (now : ℚ) (by_event : List (String × List Market)),
      (∀ p ∈ by_event, finiteGE (group_close fromIso p.2)
        (now + MIN_TIME_BUFFER_MINUTES * 60) = false) →
      (∃ p ∈ by_event, finiteGE (group_close fromIso p.2) now = true) →
      ∃ p ∈ by_event, finiteGE (group_close fromIso p.2) now = true ∧
        (pick_soonest_future_event fromIso now by_event).1 = some p.1 ∧
        ∀ q ∈ by_event, finiteGE (group_close fromIso q.2) now = true →
          EVal.le (group_close fromIso p.2) (group_close fromIso q.2) = true) ∧
    (∀ (fromIso : String → Option ℚ) (now : ℚ) (by_event : List (String × List Market)),
      (∀ p ∈ by_event, finiteGE (group_close fromIso p.2) now = false) →
      (∃ p ∈ by_event, group_close fromIso p.2 ≠ .inf) →
      ∃ p ∈ by_event, (pick_soonest_future_event fromIso now by_event).1 = some p.1 ∧
        ∀ q ∈ by_event,
          EVal.le (group_close fromIso p.2) (group_close fromIso q.2) = true) ∧
    (∀ now : ℚ, (pick_soonest_future_event (fromIsoSched now) now
      (group_by_event [mEvt3, mEvt10])).1 = some "E10") ∧
    (∀ now : ℚ, (pick_soonest_future_event (fromIsoSched now) now
      (group_by_event [mEvt3])).1 = some "E3") := by
  refine ⟨by norm_num [MIN_TIME_BUFFER_MINUTES], ?_, ?_, ?_, ?_, ?_⟩
  · intro fromIso now by_event hex
    exact pick_pass1_case hex
  · intro fromIso now by_event hnone1 hex
    exact pick_pass2_case hnone1 hex
  · intro fromIso now by_event hnone2 hex
    exact pick_pass3_case hnone2 hex
  · -- two events at now+3min and now+10min: pass 1 picks the later one
    intro now
    have hgrp : group_by_event [mEvt3, mEvt10] = [("E3", [mEvt3]), ("E10", [mEvt10])] := rfl
    have hct3 : group_close (fromIsoSched now) [mEvt3] = .fin (now + 180) := by
      simp [group_close, parse_iso_utc, fromIsoSched, mEvt3, exKeep, EVal.min2]
    have hct10 : group_close (fromIsoSched now) [mEvt10] = .fin (now + 600) := by
      simp [group_close, parse_iso_utc, fromIsoSched, mEvt10, exKeep, EVal.min2]
    rw [hgrp]
    have hex : ∃ p ∈ [("E3", [mEvt3]), ("E10", [mEvt10])],
        finiteGE (group_close (fromIsoSched now) p.2)
          (now + MIN_TIME_BUFFER_MINUTES * 60) = true := by
      refine ⟨("E10", [mEvt10]), by simp, ?_⟩
      rw [show (("E10", [mEvt10]) : String × List Market).2 = [mEvt10] from rfl, hct10]
      simp only [finiteGE, MIN_TIME_BUFFER_MINUTES, decide_eq_true_eq]
      linarith
    obtain ⟨p, hmem, hge, hfst, -⟩ := pick_pass1_case hex
    simp only [List.mem_cons, List.mem_singleton] at hmem
    rcases hmem with rfl | rfl | h
    · exfalso
      rw [show (("E3", [mEvt3]) : String × List Market).2 = [mEvt3] from rfl, hct3] at hge
      simp only [finiteGE, MIN_TIME_BUFFER_MINUTES, decide_eq_true_eq] at hge
      linarith
    · exact hfst
    · simp at h
  · -- a single event at now+3min: pass 2 picks it
    intro now
    have hgrp : group_by_event [mEvt3] = [("E3", [mEvt3])] := rfl
    have hct3 : group_close (fromIsoSched now) [mEvt3] = .fin (now + 180) := by
      simp [group_close, parse_iso_utc, fromIsoSched, mEvt3, exKeep, EVal.min2]
    rw [hgrp]
    have hnone1 : ∀ p ∈ [("E3", [mEvt3])],
        finiteGE (group_close (fromIsoSched now) p.2)
          (now + MIN_TIME_BUFFER_MINUTES * 60) = false := by
      intro p hp
      simp only [List.mem_singleton] at hp
      subst hp
      rw [show (("E3", [mEvt3]) : String × List Market).2 = [mEvt3] from rfl, hct3]
      simp only [finiteGE, decide_eq_false_iff_not, MIN_TIME_BUFFER_MINUTES]
      intro hcon
      linarith
    have hex : ∃ p ∈ [("E3", [mEvt3])],
        finiteGE (group_close (fromIsoSched now) p.2) now = true := by
      refine ⟨("E3", [mEvt3]), by simp, ?_⟩
      rw [show (("E3", [mEvt3]) : String × List Market).2 = [mEvt3] from rfl, hct3]
      simp only [finiteGE, decide_eq_true_eq]
      linarith
    obtain ⟨p, hmem, hge, hfst, -⟩ := pick_pass2_case hnone1 hex
    simp only [List.mem_singleton] at hmem
    subst hmem
    exact hfst

/-- Witness for C7 (amended): at a one-group instance with close time 400
and now = 0, the pass-1 clause applies and selects that group. -/
theorem pick_event_three_pass_spec_witness :
    (∃ p ∈ [("EV", [exKeep])], finiteGE (group_close fromIsoGood p.2)
      ((0 : ℚ) + MIN_TIME_BUFFER_MINUTES * 60) = true) ∧
    (∃ p ∈ [("EV", [exKeep])],
      finiteGE (group_close fromIsoGood p.2) ((0 : ℚ) + MIN_TIME_BUFFER_MINUTES * 60) = true ∧
      (pick_soonest_future_event fromIsoGood 0 [("EV", [exKeep])]).1 = some p.1 ∧
      ∀ q ∈ [("EV", [exKeep])],
        finiteGE (group_close fromIsoGood q.2) ((0 : ℚ) + MIN_TIME_BUFFER_MINUTES * 60) = true →
        EVal.le (group_close fromIsoGood p.2) (group_close fromIsoGood q.2) = true) := by
  have hct : group_close fromIsoGood [exKeep] = .fin 400 := by
    simp [group_close, parse_iso_utc, fromIsoGood, exKeep, EVal.min2]
  have hex : ∃ p ∈ [("EV", [exKeep])], finiteGE (group_close fromIsoGood p.2)
      ((0 : ℚ) + MIN_TIME_BUFFER_MINUTES * 60) = true := by
    refine ⟨("EV", [exKeep]), by simp, ?_⟩
    rw [show (("EV", [exKeep]) : String × List Market).2 = [exKeep] from rfl, hct]
    norm_num [finiteGE, MIN_TIME_BUFFER_MINUTES]
  exact ⟨hex, pick_event_three_pass_spec.2.1 fromIsoGood 0 [("EV", [exKeep])] hex⟩

lemma foldlM_pool_ok
    {fetchPage : String → Option String → Except TransportError (List Market × Option String)}
    {fuel : Nat} {fromIso : String → Option ℚ} {now : ℚ} :
    ∀ (l : List String) (init pool : List Market),
      l.foldlM (pool_step fetchPage fuel fromIso now) init = .ok pool →
      ∀ s ∈ l, ∃ c, series_contribution fetchPage fuel fromIso now s = .ok c := by
  intro l
  induction l with
  | nil => intro init pool h s hs; simp at hs
  | cons s0 rest ih =>
    intro init pool h s hs
    rw [List.foldlM_cons] at h
    rcases hc : series_contribution fetchPage fuel fromIso now s0 with e | c
    · rw [show pool_step fetchPage fuel fromIso now init s0 = .error e from by
        simp [pool_step, hc]] at h
      simp [Bind.bind, Except.bind] at h
    · rw [show pool_step fetchPage fuel fromIso now init s0 = .ok (init ++ c) from by
        simp [pool_step, hc]] at h
      rcases List.mem_cons.mp hs with rfl | hs
      · exact ⟨c, hc⟩
      · refine ih (init ++ c) pool ?_ s hs
        simpa [Bind.bind, Except.bind] using h

/-- Counterexample to claim C1: a fetch oracle failing with HTTP 500 on the
first configured series while every other series would contribute a good
market makes `build_pool` return that error — the loop neither catches the
failure nor returns the pool built from the remaining series. -/
theorem build_pool_cex_first_series_error :
    build_pool cexFetch 1 fromIsoGood 0 = .error (.httpStatus 500) ∧
    series_contribution cexFetch 1 fromIsoGood 0 "KXETH" = .ok [exKeep] := by
  constructor
  · rfl
  · have h1 : get_open_markets_for_series (cexFetch "KXETH") 1 none [] = .ok [exKeep] := rfl
    have h2 : group_by_event [exKeep] = [("EV", [exKeep])] := rfl
    have h3 : pick_soonest_future_event fromIsoGood 0 [("EV", [exKeep])]
        = (some "EV", [exKeep]) := by
      norm_num [pick_soonest_future_event, passLoop, group_close, parse_iso_utc, fromIsoGood,
        exKeep, EVal.min2, EVal.le, EVal.lt, MIN_TIME_BUFFER_MINUTES, lookupGroup, List.find?]
    have h4 : passes_filter exKeep = true := by
      norm_num [passes_filter, exKeep, yes_spread, no_spread, Market.liq, EVal.lt,
        MAX_SPREAD_CENTS, MIN_LIQUIDITY_CENTS]
    simp only [series_contribution, h1, h2, h3]
    rw [if_neg (by decide)]
    simp only [List.filter_cons, h4, List.filter_nil, if_true]
    rw [if_neg (by decide)]
    simp [sortByLiqDesc, insertByLiqDesc, TOP_N_LIQUID_PER_EVENT]

/-- Claim C1 (amended): `build_pool` does not catch transport errors — an
error while fetching the first configured series becomes `build_pool`'s
result (the whole run aborts, later series are never reached), and whenever
`build_pool` does return a pool, every configured series' contribution
succeeded. -/
theorem build_pool_transport_error_uncaught :
    (∀ (fetchPage : String → Option String → Except TransportError (List Market × Option String))
      (fuel : Nat) (fromIso : String → Option ℚ) (now : ℚ) (e : TransportError),
      series_contribution fetchPage fuel fromIso now "KXETHD" = .error e →
      build_pool fetchPage fuel fromIso now = .error e) ∧
    (∀ (fetchPage : String → Option String → Except TransportError (List Market × Option String))
      (fuel : Nat) (fromIso : String → Option ℚ) (now : ℚ) (pool : List Market),
      build_pool fetchPage fuel fromIso now = .ok pool →
      ∀ s ∈ SERIES, ∃ c, series_contribution fetchPage fuel fromIso now s = .ok c) := by
  constructor
  · intro fetchPage fuel fromIso now e h
    simp only [build_pool, SERIES, List.foldlM_cons]
    rw [show pool_step fetchPage fuel fromIso now [] "KXETHD" = .error e from by
      simp [pool_step, h]]
    rfl
  · intro fetchPage fuel fromIso now pool h
    exact foldlM_pool_ok SERIES [] pool h

/-- Witness for C1 (amended): with the HTTP-500-on-first-series oracle, the
first series' contribution errors and `build_pool` returns that error. -/
theorem build_pool_transport_error_uncaught_witness :
    series_contribution cexFetch 1 fromIsoGood 0 "KXETHD" = .error (.httpStatus 500) ∧
    build_pool cexFetch 1 fromIsoGood 0 = .error (.httpStatus 500) :=
  ⟨rfl, build_pool_transport_error_uncaught.1 cexFetch 1 fromIsoGood 0 (.httpStatus 500) rfl⟩

end KalshiBot
